import Mathlib

/-!
# Verification of the `simple-lob` limit order book

A shallow embedding of `src/lib.rs` (crate `simple-lob`): the data model
(`OrderSide`, `Fill`, `LimitOrder`), the side-specific comparison and
matching rules (`BuyLimitOrder`/`SellLimitOrder`), the sorted order book
(`OrderBook::insert_order`, `OrderBook::submit_order`) and the `Market`
orchestration (`<Market as LOB>::submit_order`), together with proofs of
the specification's testable properties.

Modelling conventions:
* `price: f32` is modelled as `Int`.  The source only ever compares prices
  (`>=`/`<=` in the crossing tests, `f32::total_cmp` in the book order);
  on the finite, non-NaN prices required by the specification both
  comparisons agree with the usual linear order, so any linearly ordered
  type is an order-faithful model.
* `amount: u32` and `nonce: u64` are modelled as `Nat`.  Every subtraction
  performed by the source subtracts a number known to be `≤` the minuend
  (`min` of the two amounts), so `Nat` truncated subtraction computes the
  same values; the only addition is the nonce increment.
* `VecDeque<T>` is modelled as `List LimitOrder`.  `binary_search` + insert
  on a sorted deque is modelled as the linear scan to the same partition
  point, which is extensionally equal on sorted books (the only books the
  program ever builds).
* The `Option<(Fill, Fill)>` returned by `try_fill` becomes an
  `Option ((Fill × Fill) × LimitOrder × LimitOrder)`: Rust mutates the two
  orders in place, the embedding returns their updated values.
* `Market::submit_order` returns `Result<Vec<Fill>, ()>` but can also
  panic through `.expect("orderbook has capacity")`; the embedding returns
  `Option (List Fill × Market)` with `none` for the panic (the `Err` arm
  is dead code in the source, so `none` exactly marks the panic).
-/

namespace SimpleLob

/-- `enum OrderSide { Buy, Sell }`. -/
inductive OrderSide : Type
  | Buy : OrderSide
  | Sell : OrderSide
deriving DecidableEq, Repr

/-- `OrderSide::opposite`. -/
def OrderSide.opposite : OrderSide → OrderSide
  | .Buy => .Sell
  | .Sell => .Buy

/-- `struct Fill { side, amount, price, trader, counter_party }`. -/
structure Fill : Type where
  side : OrderSide
  amount : Nat
  price : Int
  trader : Nat
  counter_party : Nat
deriving DecidableEq, Repr

/-- `Fill::new` (argument order as in the source). -/
def Fill.new (amount : Nat) (price : Int) (side : OrderSide)
    (trader : Nat) (counter_party : Nat) : Fill :=
  { side := side, amount := amount, price := price,
    trader := trader, counter_party := counter_party }

/-- `struct LimitOrder { price, nonce, amount, trader_id }`. -/
structure LimitOrder : Type where
  price : Int
  nonce : Nat
  amount : Nat
  trader_id : Nat
deriving DecidableEq, Repr

/-- `LimitOrder::try_fill`: fill `self` with `other`, producing the Fill
pair and the updated `(self, other)`.  The Rust `match` on
`self.amount.cmp(&other.amount)` merges the `Equal | Less` arms, i.e. the
test is `self.amount <= other.amount`; the source always returns `Some`,
so the embedding drops the `Option`. -/
def LimitOrder.try_fill (self other : LimitOrder) (side : OrderSide) :
    (Fill × Fill) × LimitOrder × LimitOrder :=
  let fill_amount := if self.amount ≤ other.amount then self.amount else other.amount
  let self' := if self.amount ≤ other.amount
    then { self with amount := 0 }
    else { self with amount := self.amount - other.amount }
  let other' := if self.amount ≤ other.amount
    then { other with amount := other.amount - self.amount }
    else { other with amount := 0 }
  ((Fill.new fill_amount self.price side self.trader_id other.trader_id,
    Fill.new fill_amount self.price side.opposite other.trader_id self.trader_id),
   self', other')

/-- `<BuyLimitOrder as TryFill>::try_fill`: a resting buy `self` crosses an
incoming sell `other` when `self.price >= other.price`. -/
def BuyLimitOrder.try_fill (self other : LimitOrder) :
    Option ((Fill × Fill) × LimitOrder × LimitOrder) :=
  if other.price ≤ self.price then some (LimitOrder.try_fill self other .Buy) else none

/-- `<SellLimitOrder as TryFill>::try_fill`: a resting sell `self` crosses
an incoming buy `other` when `self.price <= other.price`. -/
def SellLimitOrder.try_fill (self other : LimitOrder) :
    Option ((Fill × Fill) × LimitOrder × LimitOrder) :=
  if self.price ≤ other.price then some (LimitOrder.try_fill self other .Sell) else none

/-- `<BuyLimitOrder as PartialOrd>::partial_cmp` (always `Some`, so plain
`Ordering`): price descending via the reversed `total_cmp`, ties by
ascending nonce. -/
def BuyLimitOrder.cmp (a b : LimitOrder) : Ordering :=
  match compare a.price b.price with
  | .eq => compare a.nonce b.nonce
  | .gt => .lt
  | .lt => .gt

/-- `<SellLimitOrder as PartialOrd>::partial_cmp`: price ascending, ties by
ascending nonce. -/
def SellLimitOrder.cmp (a b : LimitOrder) : Ordering :=
  match compare a.price b.price with
  | .eq => compare a.nonce b.nonce
  | o => o

/-- `OrderBook::insert_order`, generic over the element order `cmp`
(the Rust `T: Ord` parameter): insert at the partition point found by
`binary_search`, or `Err(())` (here `none`) when an equal-key order is
already present. -/
def OrderBook.insert_order (cmp : LimitOrder → LimitOrder → Ordering) :
    List LimitOrder → LimitOrder → Option (List LimitOrder)
  | [], o => some [o]
  | x :: xs, o =>
    match cmp x o with
    | .lt => (OrderBook.insert_order cmp xs o).map (fun t => x :: t)
    | .eq => none
    | .gt => some (o :: x :: xs)

/-- The `for resting_order in self.0.iter_mut()` loop of
`OrderBook::submit_order`: returns the accumulated fills, the
`remove_count`, the book with the in-place updates (before the `drain`),
and the updated incoming order.  The loop breaks when `try_fill` returns
`None`, and after a fill when the incoming order is exhausted. -/
def OrderBook.sweep
    (tryf : LimitOrder → LimitOrder → Option ((Fill × Fill) × LimitOrder × LimitOrder)) :
    List LimitOrder → LimitOrder → List Fill × Nat × List LimitOrder × LimitOrder
  | [], order => ([], 0, [], order)
  | resting :: rest, order =>
    match tryf resting order with
    | none => ([], 0, resting :: rest, order)
    | some ((f0, f1), resting', order') =>
      let rc := if resting'.amount = 0 then 1 else 0
      if order'.amount = 0 then
        ([f0, f1], rc, resting' :: rest, order')
      else
        let r := OrderBook.sweep tryf rest order'
        (f0 :: f1 :: r.1, rc + r.2.1, resting' :: r.2.2.1, r.2.2.2)

/-- `OrderBook::submit_order`: run the sweep, `drain(0..remove_count)`,
and return the remainder when the incoming order is not exhausted. -/
def OrderBook.submit_order
    (tryf : LimitOrder → LimitOrder → Option ((Fill × Fill) × LimitOrder × LimitOrder))
    (book : List LimitOrder) (order : LimitOrder) :
    List Fill × List LimitOrder × Option LimitOrder :=
  let r := OrderBook.sweep tryf book order
  let book' := r.2.2.1.drop r.2.1
  if r.2.2.2.amount = 0 then (r.1, book', none) else (r.1, book', some r.2.2.2)

/-- `struct Market { nonce, buys, sells }`. -/
structure Market : Type where
  nonce : Nat
  buys : List LimitOrder
  sells : List LimitOrder
deriving DecidableEq, Repr

/-- `Market::default()`. -/
def Market.default : Market :=
  { nonce := 0, buys := [], sells := [] }

/-- `<Market as LOB>::submit_order`.  `none` models the
`.expect("orderbook has capacity")` panic on duplicate-key insertion;
the source's `Err` arm is unreachable and is not modelled. -/
def Market.submit_order (m : Market) (trader_id : Nat) (amount : Nat)
    (price : Int) (side : OrderSide) : Option (List Fill × Market) :=
  if amount = 0 then some ([], m) else
  let order : LimitOrder :=
    { price := price, nonce := m.nonce, amount := amount, trader_id := trader_id }
  match side with
  | .Buy =>
    let r := OrderBook.submit_order SellLimitOrder.try_fill m.sells order
    match r.2.2 with
    | none => some (r.1, { nonce := m.nonce + 1, buys := m.buys, sells := r.2.1 })
    | some unfilled =>
      match OrderBook.insert_order BuyLimitOrder.cmp m.buys unfilled with
      | none => none
      | some buys' => some (r.1, { nonce := m.nonce + 1, buys := buys', sells := r.2.1 })
  | .Sell =>
    let r := OrderBook.submit_order BuyLimitOrder.try_fill m.buys order
    match r.2.2 with
    | none => some (r.1, { nonce := m.nonce + 1, buys := r.2.1, sells := m.sells })
    | some unfilled =>
      match OrderBook.insert_order SellLimitOrder.cmp m.sells unfilled with
      | none => none
      | some sells' => some (r.1, { nonce := m.nonce + 1, buys := r.2.1, sells := sells' })

/-- Reachable market states: `Market::default()` and everything produced
from it by successful `submit_order` calls. -/
inductive Reachable : Market → Prop
  | default : Reachable Market.default
  | step {m : Market} {t a : Nat} {p : Int} {s : OrderSide}
      {fills : List Fill} {m' : Market} :
      Reachable m → Market.submit_order m t a p s = some (fills, m') → Reachable m'

/-- One book: the market's book for the given side. -/
def Market.book (m : Market) : OrderSide → List LimitOrder
  | .Buy => m.buys
  | .Sell => m.sells

/-- Sum of the amounts of the fills carrying the given side. -/
def sumSide (σ : OrderSide) : List Fill → Nat
  | [] => 0
  | f :: rest => (if f.side = σ then f.amount else 0) + sumSide σ rest

/-- Total resting amount of a book. -/
def listAmount (book : List LimitOrder) : Nat :=
  (book.map LimitOrder.amount).sum

/-- The strict order the buy book is sorted by (best = front). -/
def buyLt (a b : LimitOrder) : Prop := BuyLimitOrder.cmp a b = .lt

/-- The strict order the sell book is sorted by (best = front). -/
def sellLt (a b : LimitOrder) : Prop := SellLimitOrder.cmp a b = .lt

/-- The side's book order as a function of the side tag. -/
def sideCmp : OrderSide → LimitOrder → LimitOrder → Ordering
  | .Buy => BuyLimitOrder.cmp
  | .Sell => SellLimitOrder.cmp

/-- The side's `try_fill` (the resting side's `TryFill` impl) as a
function of the side tag. -/
def sideTryFill : OrderSide → LimitOrder → LimitOrder →
    Option ((Fill × Fill) × LimitOrder × LimitOrder)
  | .Buy => BuyLimitOrder.try_fill
  | .Sell => SellLimitOrder.try_fill

/-- `tryf` behaves as the side-`σ` wrapper: whenever it fires it is the
common `LimitOrder::try_fill` at side `σ`. -/
def IsFillFn (σ : OrderSide)
    (tryf : LimitOrder → LimitOrder → Option ((Fill × Fill) × LimitOrder × LimitOrder)) :
    Prop :=
  ∀ s o z, tryf s o = some z → z = LimitOrder.try_fill s o σ

/-- Flatten a list of fill pairs in generation order. -/
def pairFills : List (Fill × Fill) → List Fill
  | [] => []
  | q :: t => q.1 :: q.2 :: pairFills t

/-- One matched pair against the resting order `r`: the first fill is from
the resting perspective, the second from the incoming trader `tid`'s
perspective with the roles swapped. -/
def PairRel (σ : OrderSide) (tid : Nat) (q : Fill × Fill) (r : LimitOrder) : Prop :=
  q.1 = Fill.new q.1.amount r.price σ r.trader_id tid ∧
  q.2 = Fill.new q.1.amount r.price σ.opposite tid r.trader_id ∧
  q.1.amount ≤ r.amount

/-- The market invariant: both books sorted by their side's strict order,
books never cross, no exhausted resting order, and every resting nonce is
below the market's next nonce. -/
def Inv (m : Market) : Prop :=
  List.Pairwise buyLt m.buys ∧ List.Pairwise sellLt m.sells ∧
  (∀ b ∈ m.buys, ∀ s ∈ m.sells, b.price < s.price) ∧
  (∀ o ∈ m.buys, 0 < o.amount) ∧ (∀ o ∈ m.sells, 0 < o.amount) ∧
  (∀ o ∈ m.buys, o.nonce < m.nonce) ∧ (∀ o ∈ m.sells, o.nonce < m.nonce)

/-- Insert a list of orders into a book one by one, in list order
(the repeated use `OrderBook::insert_order` gets from `Market`). -/
def OrderBook.insertAll (cmp : LimitOrder → LimitOrder → Ordering) :
    List LimitOrder → List LimitOrder → Option (List LimitOrder)
  | book, [] => some book
  | book, o :: rest =>
    match OrderBook.insert_order cmp book o with
    | none => none
    | some b => OrderBook.insertAll cmp b rest

/-- Modelled from the spec's early-exit discussion: the naive reference
sweep that attempts `try_fill` against every resting order instead of
stopping at the first non-crossing one.  It still stops once the incoming
order is exhausted, removes exhausted resting orders in place, and is the
yardstick the early-exit sweep is compared against. -/
def OrderBook.sweepNaive
    (tryf : LimitOrder → LimitOrder → Option ((Fill × Fill) × LimitOrder × LimitOrder)) :
    List LimitOrder → LimitOrder → List Fill × List LimitOrder × LimitOrder
  | [], order => ([], [], order)
  | resting :: rest, order =>
    if order.amount = 0 then ([], resting :: rest, order)
    else
      match tryf resting order with
      | none =>
        let r := OrderBook.sweepNaive tryf rest order
        (r.1, resting :: r.2.1, r.2.2)
      | some ((f0, f1), resting', order') =>
        let r := OrderBook.sweepNaive tryf rest order'
        (f0 :: f1 :: r.1,
         if resting'.amount = 0 then r.2.1 else resting' :: r.2.1,
         r.2.2)

/-- The naive counterpart of `OrderBook.submit_order`. -/
def OrderBook.submit_orderNaive
    (tryf : LimitOrder → LimitOrder → Option ((Fill × Fill) × LimitOrder × LimitOrder))
    (book : List LimitOrder) (order : LimitOrder) :
    List Fill × List LimitOrder × Option LimitOrder :=
  let r := OrderBook.sweepNaive tryf book order
  if r.2.2.amount = 0 then (r.1, r.2.1, none) else (r.1, r.2.1, some r.2.2)

/-- A demo market: one resting buy. -/
def mDemo1 : Market :=
  { nonce := 1,
    buys := [{ price := 5, nonce := 0, amount := 10, trader_id := 1 }],
    sells := [] }

/-- A demo market: one resting buy and one resting sell, not crossing. -/
def mDemo2 : Market :=
  { nonce := 2,
    buys := [{ price := 5, nonce := 0, amount := 10, trader_id := 1 }],
    sells := [{ price := 7, nonce := 1, amount := 10, trader_id := 2 }] }

section OrderingFacts

theorem opposite_opposite (σ : OrderSide) : σ.opposite.opposite = σ := by
  cases σ <;> rfl

theorem opposite_ne (σ : OrderSide) : σ.opposite ≠ σ := by
  cases σ <;> simp [OrderSide.opposite]

theorem buy_cmp_lt_iff (a b : LimitOrder) :
    BuyLimitOrder.cmp a b = .lt ↔
      b.price < a.price ∨ (a.price = b.price ∧ a.nonce < b.nonce) := by
  unfold BuyLimitOrder.cmp
  rcases lt_trichotomy a.price b.price with h | h | h
  · rw [compare_lt_iff_lt.mpr h]
    simp
    omega
  · rw [compare_eq_iff_eq.mpr h]
    rcases Nat.lt_trichotomy a.nonce b.nonce with h' | h' | h' <;>
      simp [Nat.compare_eq_lt, Nat.compare_eq_eq, Nat.compare_eq_gt, h, h']
  · rw [compare_gt_iff_gt.mpr h]
    simp
    omega

theorem buy_cmp_eq_iff (a b : LimitOrder) :
    BuyLimitOrder.cmp a b = .eq ↔ a.price = b.price ∧ a.nonce = b.nonce := by
  unfold BuyLimitOrder.cmp
  rcases lt_trichotomy a.price b.price with h | h | h
  · rw [compare_lt_iff_lt.mpr h]
    simp
    omega
  · rw [compare_eq_iff_eq.mpr h]
    simp [Nat.compare_eq_eq, h]
  · rw [compare_gt_iff_gt.mpr h]
    simp
    omega

theorem sell_cmp_lt_iff (a b : LimitOrder) :
    SellLimitOrder.cmp a b = .lt ↔
      a.price < b.price ∨ (a.price = b.price ∧ a.nonce < b.nonce) := by
  unfold SellLimitOrder.cmp
  rcases lt_trichotomy a.price b.price with h | h | h
  · rw [compare_lt_iff_lt.mpr h]
    simp
    omega
  · rw [compare_eq_iff_eq.mpr h]
    simp [Nat.compare_eq_lt, h]
  · rw [compare_gt_iff_gt.mpr h]
    simp
    omega

theorem sell_cmp_eq_iff (a b : LimitOrder) :
    SellLimitOrder.cmp a b = .eq ↔ a.price = b.price ∧ a.nonce = b.nonce := by
  unfold SellLimitOrder.cmp
  rcases lt_trichotomy a.price b.price with h | h | h
  · rw [compare_lt_iff_lt.mpr h]
    simp
    omega
  · rw [compare_eq_iff_eq.mpr h]
    simp [Nat.compare_eq_eq, h]
  · rw [compare_gt_iff_gt.mpr h]
    simp
    omega

theorem buy_cmp_gt_iff (a b : LimitOrder) :
    BuyLimitOrder.cmp a b = .gt ↔ BuyLimitOrder.cmp b a = .lt := by
  rcases h : BuyLimitOrder.cmp a b with _ | _ | _
  · rw [buy_cmp_lt_iff] at h
    constructor
    · intro hc
      exact absurd hc (by simp)
    · intro hc
      rw [buy_cmp_lt_iff] at hc
      omega
  · rw [buy_cmp_eq_iff] at h
    constructor
    · intro hc
      exact absurd hc (by simp)
    · intro hc
      rw [buy_cmp_lt_iff] at hc
      omega
  · constructor
    · intro _
      have : ¬ BuyLimitOrder.cmp b a = .lt → False := by
        intro hn
        rcases hg : BuyLimitOrder.cmp b a with _ | _ | _
        · exact hn hg
        · rw [buy_cmp_eq_iff] at hg
          have := (buy_cmp_eq_iff a b).mpr ⟨hg.1.symm, hg.2.symm⟩
          rw [this] at h
          exact absurd h (by simp)
        · rcases hg3 : BuyLimitOrder.cmp a b with _ | _ | _
          · rw [hg3] at h
            exact absurd h (by simp)
          · rw [hg3] at h
            exact absurd h (by simp)
          · -- both gt: derive both lt-style facts and contradict
            have h1 : ¬ BuyLimitOrder.cmp a b = .lt := by
              rw [hg3]
              simp
            have h2 : ¬ BuyLimitOrder.cmp a b = .eq := by
              rw [hg3]
              simp
            rw [buy_cmp_lt_iff] at h1
            rw [buy_cmp_eq_iff] at h2
            have h3 : ¬ BuyLimitOrder.cmp b a = .lt := hn
            rw [buy_cmp_lt_iff] at h3
            omega
      by_contra hn
      exact this hn
    · intro _
      rfl

theorem sell_cmp_gt_iff (a b : LimitOrder) :
    SellLimitOrder.cmp a b = .gt ↔ SellLimitOrder.cmp b a = .lt := by
  have key : ∀ x y : LimitOrder, SellLimitOrder.cmp x y = .lt ∨
      SellLimitOrder.cmp x y = .eq ∨ SellLimitOrder.cmp x y = .gt := by
    intro x y
    rcases SellLimitOrder.cmp x y with _ | _ | _ <;> simp
  rcases key a b with h | h | h
  · rw [h]
    rw [sell_cmp_lt_iff] at h
    constructor
    · intro hc
      exact absurd hc (by simp)
    · intro hc
      rw [sell_cmp_lt_iff] at hc
      omega
  · rw [h]
    rw [sell_cmp_eq_iff] at h
    constructor
    · intro hc
      exact absurd hc (by simp)
    · intro hc
      rw [sell_cmp_lt_iff] at hc
      omega
  · rw [h]
    simp only [true_iff]
    rcases key b a with h' | h' | h'
    · exact h'
    · rw [sell_cmp_eq_iff] at h'
      have := (sell_cmp_eq_iff a b).mpr ⟨h'.1.symm, h'.2.symm⟩
      rw [this] at h
      exact absurd h (by simp)
    · have h1 : ¬ SellLimitOrder.cmp a b = .lt := by
        rw [h]
        simp
      have h2 : ¬ SellLimitOrder.cmp a b = .eq := by
        rw [h]
        simp
      have h3 : ¬ SellLimitOrder.cmp b a = .lt := by
        rw [h']
        simp
      rw [sell_cmp_lt_iff] at h1 h3
      rw [sell_cmp_eq_iff] at h2
      omega

theorem buyLt_trans {a b c : LimitOrder} (h1 : buyLt a b) (h2 : buyLt b c) : buyLt a c := by
  unfold buyLt at *
  rw [buy_cmp_lt_iff] at *
  omega

theorem sellLt_trans {a b c : LimitOrder} (h1 : sellLt a b) (h2 : sellLt b c) : sellLt a c := by
  unfold sellLt at *
  rw [sell_cmp_lt_iff] at *
  omega

theorem buyLt_asymm {a b : LimitOrder} (h1 : buyLt a b) (h2 : buyLt b a) : False := by
  unfold buyLt at *
  rw [buy_cmp_lt_iff] at *
  omega

theorem sellLt_asymm {a b : LimitOrder} (h1 : sellLt a b) (h2 : sellLt b a) : False := by
  unfold sellLt at *
  rw [sell_cmp_lt_iff] at *
  omega

/-- The comparisons ignore the `amount` field. -/
theorem buy_cmp_amount_left (a : LimitOrder) (n : Nat) (b : LimitOrder) :
    BuyLimitOrder.cmp { a with amount := n } b = BuyLimitOrder.cmp a b := rfl

theorem sell_cmp_amount_left (a : LimitOrder) (n : Nat) (b : LimitOrder) :
    SellLimitOrder.cmp { a with amount := n } b = SellLimitOrder.cmp a b := rfl

end OrderingFacts

section TryFillFacts

/-- Closed form of `LimitOrder.try_fill`: the traded amount is the minimum
of the two amounts, the fill price the (resting) `self` price, and each
order loses the traded amount. -/
theorem try_fill_eq (s o : LimitOrder) (σ : OrderSide) :
    LimitOrder.try_fill s o σ =
      ((Fill.new (min s.amount o.amount) s.price σ s.trader_id o.trader_id,
        Fill.new (min s.amount o.amount) s.price σ.opposite o.trader_id s.trader_id),
       { s with amount := s.amount - o.amount },
       { o with amount := o.amount - s.amount }) := by
  unfold LimitOrder.try_fill
  by_cases h : s.amount ≤ o.amount
  · simp [h, Nat.min_def, Nat.sub_eq_zero_of_le h]
  · have h' : o.amount ≤ s.amount := le_of_not_le h
    simp [h, Nat.min_def, Nat.sub_eq_zero_of_le h']

theorem buy_isFillFn : IsFillFn .Buy BuyLimitOrder.try_fill := by
  intro s o z h
  unfold BuyLimitOrder.try_fill at h
  split at h
  · exact (Option.some.injEq _ _ ▸ h).symm ▸ rfl
  · exact absurd h (by simp)

theorem sell_isFillFn : IsFillFn .Sell SellLimitOrder.try_fill := by
  intro s o z h
  unfold SellLimitOrder.try_fill at h
  split at h
  · exact (Option.some.injEq _ _ ▸ h).symm ▸ rfl
  · exact absurd h (by simp)

theorem buy_try_fill_none_iff (s o : LimitOrder) :
    BuyLimitOrder.try_fill s o = none ↔ s.price < o.price := by
  unfold BuyLimitOrder.try_fill
  split <;> rename_i h <;> simp <;> omega

theorem sell_try_fill_none_iff (s o : LimitOrder) :
    SellLimitOrder.try_fill s o = none ↔ o.price < s.price := by
  unfold SellLimitOrder.try_fill
  split <;> rename_i h <;> simp <;> omega

end TryFillFacts

section InsertFacts

variable {cmp : LimitOrder → LimitOrder → Ordering}

/-- A successful insertion is a permutation of consing the new order. -/
theorem insert_order_perm :
    ∀ {book book' : List LimitOrder} {o : LimitOrder},
      OrderBook.insert_order cmp book o = some book' → book'.Perm (o :: book) := by
  intro book
  induction book with
  | nil =>
    intro book' o h
    simp only [OrderBook.insert_order] at h
    cases h
    exact List.Perm.refl _
  | cons x xs ih =>
    intro book' o h
    simp only [OrderBook.insert_order] at h
    rcases hc : cmp x o with _ | _ | _ <;> rw [hc] at h
    · rcases ht : OrderBook.insert_order cmp xs o with _ | t <;> rw [ht] at h
      · exact absurd h (by simp)
      · simp only [Option.map_some] at h
        cases h
        exact (List.Perm.cons x (ih ht)).trans (List.Perm.swap o x xs)
    · exact absurd h (by simp)
    · cases h
      exact List.Perm.refl _

/-- Insertion preserves sortedness. -/
theorem insert_order_sorted
    (hgt : ∀ a b, cmp a b = .gt ↔ cmp b a = .lt)
    (htrans : ∀ a b c, cmp a b = .lt → cmp b c = .lt → cmp a c = .lt) :
    ∀ {book book' : List LimitOrder} {o : LimitOrder},
      List.Pairwise (fun a b => cmp a b = .lt) book →
      OrderBook.insert_order cmp book o = some book' →
      List.Pairwise (fun a b => cmp a b = .lt) book' := by
  intro book
  induction book with
  | nil =>
    intro book' o _ h
    simp only [OrderBook.insert_order] at h
    cases h
    simp
  | cons x xs ih =>
    intro book' o hp h
    rcases List.pairwise_cons.mp hp with ⟨hx, hxs⟩
    simp only [OrderBook.insert_order] at h
    rcases hc : cmp x o with _ | _ | _ <;> rw [hc] at h
    · rcases ht : OrderBook.insert_order cmp xs o with _ | t <;> rw [ht] at h
      · exact absurd h (by simp)
      · simp only [Option.map_some] at h
        cases h
        refine List.pairwise_cons.mpr ⟨?_, ih hxs ht⟩
        intro y hy
        have hy' : y ∈ o :: xs := (insert_order_perm ht).subset hy
        rcases List.mem_cons.mp hy' with rfl | hy''
        · exact hc
        · exact hx y hy''
    · exact absurd h (by simp)
    · cases h
      refine List.pairwise_cons.mpr ⟨?_, hp⟩
      intro y hy
      rcases List.mem_cons.mp hy with rfl | hy'
      · exact (hgt y o).mp hc
      · exact htrans o x y ((hgt x o).mp hc) (hx y hy')

/-- On a sorted book, insertion fails exactly when an equal-key order is
already present. -/
theorem insert_order_none_iff
    (hlt_eq : ∀ a b c, cmp a b = .lt → cmp b c = .eq → cmp a c = .lt) :
    ∀ {book : List LimitOrder} {o : LimitOrder},
      List.Pairwise (fun a b => cmp a b = .lt) book →
      (OrderBook.insert_order cmp book o = none ↔ ∃ x ∈ book, cmp x o = .eq) := by
  intro book
  induction book with
  | nil =>
    intro o _
    simp [OrderBook.insert_order]
  | cons x xs ih =>
    intro o hp
    rcases List.pairwise_cons.mp hp with ⟨hx, hxs⟩
    simp only [OrderBook.insert_order]
    rcases hc : cmp x o with _ | _ | _
    · constructor
      · intro h
        rcases ht : OrderBook.insert_order cmp xs o with _ | t <;> rw [ht] at h
        · rcases (ih hxs).mp ht with ⟨y, hy, hye⟩
          exact ⟨y, List.mem_cons_of_mem x hy, hye⟩
        · exact absurd h (by simp)
      · intro ⟨y, hy, hye⟩
        rcases List.mem_cons.mp hy with rfl | hy'
        · rw [hye] at hc
          exact absurd hc (by simp)
        · rw [(ih hxs).mpr ⟨y, hy', hye⟩]
          rfl
    · constructor
      · intro _
        exact ⟨x, List.mem_cons_self x xs, hc⟩
      · intro _
        rfl
    · constructor
      · intro h
        exact absurd h (by simp)
      · intro ⟨y, hy, hye⟩
        rcases List.mem_cons.mp hy with rfl | hy'
        · rw [hye] at hc
          exact absurd hc (by simp)
        · have := hlt_eq x y o (hx y hy') hye
          rw [this] at hc
          exact absurd hc (by simp)

end InsertFacts

section SweepFacts

theorem sumSide_pair_cons (σ : OrderSide) (a : Nat) (p : Int) (t c : Nat) (rest : List Fill) :
    sumSide σ (Fill.new a p σ t c :: Fill.new a p σ.opposite c t :: rest)
      = a + sumSide σ rest ∧
    sumSide σ.opposite (Fill.new a p σ t c :: Fill.new a p σ.opposite c t :: rest)
      = a + sumSide σ.opposite rest := by
  constructor <;>
    simp [sumSide, Fill.new, opposite_ne σ, Ne.symm (opposite_ne σ)]

/-- The master specification of the matching sweep: the incoming order
keeps its identity and can only shrink; the fills are generated in pairs
against the front prefix of the book, in book order; quantity is
conserved; `remove_count` counts a front prefix of exhausted orders, and
the book past the swept prefix is untouched (at most the new front order
has a reduced, still positive, amount); and if the incoming order is not
exhausted the remaining front (if any) fails the crossing test. -/
theorem sweep_spec {σ : OrderSide}
    {tryf : LimitOrder → LimitOrder → Option ((Fill × Fill) × LimitOrder × LimitOrder)}
    (hf : IsFillFn σ tryf) :
    ∀ (book : List LimitOrder) (order : LimitOrder) (fills : List Fill) (rc : Nat)
      (bk2 : List LimitOrder) (ord2 : LimitOrder),
      order.amount ≠ 0 →
      OrderBook.sweep tryf book order = (fills, rc, bk2, ord2) →
      (ord2.price = order.price ∧ ord2.nonce = order.nonce ∧
       ord2.trader_id = order.trader_id ∧ ord2.amount ≤ order.amount) ∧
      (∃ ps : List (Fill × Fill),
        fills = pairFills ps ∧
        List.Forall₂ (PairRel σ order.trader_id) ps (book.take ps.length)) ∧
      (sumSide σ fills = sumSide σ.opposite fills ∧
       listAmount bk2 + sumSide σ fills = listAmount book ∧
       ord2.amount + sumSide σ.opposite fills = order.amount) ∧
      ((∀ x ∈ bk2.take rc, x.amount = 0) ∧
       (bk2.drop rc = book.drop rc ∨
        ∃ y rest' b, book.drop rc = y :: rest' ∧ b < y.amount ∧ 0 < b ∧
          bk2.drop rc = { y with amount := b } :: rest')) ∧
      (ord2.amount ≠ 0 →
        (bk2.drop rc = [] ∨ ∃ s' t', bk2.drop rc = s' :: t' ∧ tryf s' ord2 = none)) := by
  intro book
  induction book with
  | nil =>
    intro order fills rc bk2 ord2 _ h
    simp only [OrderBook.sweep, Prod.mk.injEq] at h
    obtain ⟨rfl, rfl, rfl, rfl⟩ := h
    refine ⟨⟨rfl, rfl, rfl, le_refl _⟩, ⟨[], rfl, List.Forall₂.nil⟩,
      ⟨rfl, by simp [sumSide], by simp [sumSide]⟩, ⟨by simp, Or.inl rfl⟩,
      fun _ => Or.inl rfl⟩
  | cons resting rest ih =>
    intro order fills rc bk2 ord2 ho h
    rcases htf : tryf resting order with _ | z
    · simp only [OrderBook.sweep, htf, Prod.mk.injEq] at h
      obtain ⟨rfl, rfl, rfl, rfl⟩ := h
      refine ⟨⟨rfl, rfl, rfl, le_refl _⟩, ⟨[], rfl, List.Forall₂.nil⟩,
        ⟨rfl, by simp [sumSide], by simp [sumSide]⟩, ⟨by simp, Or.inl rfl⟩,
        fun _ => Or.inr ⟨resting, rest, rfl, htf⟩⟩
    · obtain ⟨⟨f0, f1⟩, resting', order'⟩ := z
      have hz := hf _ _ _ htf
      rw [try_fill_eq] at hz
      simp only [Prod.mk.injEq] at hz
      obtain ⟨⟨hf0, hf1⟩, hrst, hord⟩ := hz
      have hoam : order'.amount = order.amount - resting.amount := by rw [hord]
      have hram : resting'.amount = resting.amount - order.amount := by rw [hrst]
      have htid : order'.trader_id = order.trader_id := by rw [hord]
      have hmin1 : min resting.amount order.amount ≤ resting.amount := Nat.min_le_left _ _
      have hmin2 : min resting.amount order.amount ≤ order.amount := Nat.min_le_right _ _
      have hmin3 : min resting.amount order.amount = resting.amount ∨
          min resting.amount order.amount = order.amount := min_choice _ _
      simp only [OrderBook.sweep, htf] at h
      by_cases ho' : order'.amount = 0
      · rw [if_pos ho'] at h
        simp only [Prod.mk.injEq] at h
        obtain ⟨rfl, rfl, rfl, rfl⟩ := h
        have hsums := sumSide_pair_cons σ (min resting.amount order.amount)
          resting.price resting.trader_id order.trader_id []
        have hpair : PairRel σ order.trader_id (f0, f1) resting := by
          refine ⟨?_, ?_, ?_⟩
          · rw [hf0]
            rfl
          · rw [hf1, hf0]
            rfl
          · rw [hf0]
            exact Nat.min_le_left _ _
        refine ⟨⟨by rw [hord], by rw [hord], htid, by rw [hord]; exact Nat.sub_le _ _⟩,
          ⟨[(f0, f1)], rfl, ?_⟩, ⟨?_, ?_, ?_⟩, ⟨?_, ?_⟩, fun hne => absurd ho' hne⟩
        · exact List.Forall₂.cons hpair List.Forall₂.nil
        · rw [hf0, hf1]
          rw [hsums.1, hsums.2]
          simp [sumSide]
        · rw [hf0, hf1, hsums.1]
          simp only [listAmount, List.map_cons, List.sum_cons, sumSide, Nat.add_zero]
          omega
        · rw [hf0, hf1, hsums.2, hoam]
          simp only [sumSide, Nat.add_zero]
          omega
        · by_cases hz' : resting'.amount = 0
          · rw [if_pos hz']
            intro x hx
            simp only [List.take_succ_cons, List.take_zero, List.mem_singleton] at hx
            rw [hx]
            exact hz'
          · rw [if_neg hz']
            intro x hx
            exact absurd hx (by simp)
        · by_cases hz' : resting'.amount = 0
          · rw [if_pos hz']
            exact Or.inl rfl
          · rw [if_neg hz']
            refine Or.inr ⟨resting, rest, resting.amount - order.amount, rfl, ?_, ?_, ?_⟩
            · omega
            · omega
            · simp [hrst]
      · rw [if_neg ho'] at h
        rcases hrec : OrderBook.sweep tryf rest order' with ⟨fills2, rc2, bk2', ord2'⟩
        rw [hrec] at h
        simp only [Prod.mk.injEq] at h
        obtain ⟨rfl, rfl, rfl, rfl⟩ := h
        obtain ⟨ihA, ⟨ps2, hps2, hfa2⟩, ihC, ihD, ihE⟩ :=
          ih order' fills2 rc2 bk2' ord2' ho' hrec
        have hlt : resting.amount < order.amount := by omega
        have hz0 : resting'.amount = 0 := by omega
        have hrc : (if resting'.amount = 0 then 1 else 0) + rc2 = rc2 + 1 := by
          rw [if_pos hz0]
          omega
        have hsums := sumSide_pair_cons σ (min resting.amount order.amount)
          resting.price resting.trader_id order.trader_id fills2
        have hpair : PairRel σ order.trader_id (f0, f1) resting := by
          refine ⟨?_, ?_, ?_⟩
          · rw [hf0]
            rfl
          · rw [hf1, hf0]
            rfl
          · rw [hf0]
            exact Nat.min_le_left _ _
        rw [htid] at hfa2
        refine ⟨⟨by rw [ihA.1, hord], by rw [ihA.2.1, hord], by rw [ihA.2.2.1, htid],
            le_trans ihA.2.2.2 (by rw [hord]; exact Nat.sub_le _ _)⟩,
          ⟨(f0, f1) :: ps2, by rw [hps2]; rfl, ?_⟩, ⟨?_, ?_, ?_⟩, ⟨?_, ?_⟩, ?_⟩
        · simp only [List.length_cons, List.take_succ_cons]
          exact List.Forall₂.cons hpair hfa2
        · rw [hf0, hf1, hsums.1, hsums.2, ihC.1]
        · rw [hf0, hf1, hsums.1]
          have hc1 := ihC.2.1
          simp only [listAmount, List.map_cons, List.sum_cons] at hc1 ⊢
          omega
        · rw [hf0, hf1, hsums.2]
          have hc2 := ihC.2.2
          omega
        · rw [hrc]
          intro x hx
          rw [List.take_succ_cons] at hx
          rcases List.mem_cons.mp hx with hx | hx
          · rw [hx]
            exact hz0
          · exact ihD.1 x hx
        · rw [hrc]
          rw [List.drop_succ_cons, List.drop_succ_cons]
          exact ihD.2
        · rw [hrc]
          rw [List.drop_succ_cons]
          exact ihE

/-- `OrderBook.submit_order` in terms of the sweep. -/
theorem submit_order_eq
    (tryf : LimitOrder → LimitOrder → Option ((Fill × Fill) × LimitOrder × LimitOrder))
    (book : List LimitOrder) (order : LimitOrder) :
    OrderBook.submit_order tryf book order =
      ((OrderBook.sweep tryf book order).1,
       (OrderBook.sweep tryf book order).2.2.1.drop (OrderBook.sweep tryf book order).2.1,
       if (OrderBook.sweep tryf book order).2.2.2.amount = 0 then none
       else some (OrderBook.sweep tryf book order).2.2.2) := by
  unfold OrderBook.submit_order
  by_cases h : (OrderBook.sweep tryf book order).2.2.2.amount = 0
  · rw [if_pos h, if_pos h]
  · rw [if_neg h, if_neg h]

/-- After the drain, the book is still sorted: the untouched suffix was
sorted, and a partially-filled new front only changed its amount, which
the comparison ignores. -/
theorem sorted_after_sweep {lt' : LimitOrder → LimitOrder → Prop}
    (hamt : ∀ (a : LimitOrder) (n : Nat) (z : LimitOrder),
      lt' { a with amount := n } z ↔ lt' a z)
    {book bk2 : List LimitOrder} {rc : Nat}
    (hp : List.Pairwise lt' book)
    (hshape : bk2.drop rc = book.drop rc ∨
       ∃ y rest' b, book.drop rc = y :: rest' ∧ b < y.amount ∧ 0 < b ∧
         bk2.drop rc = { y with amount := b } :: rest') :
    List.Pairwise lt' (bk2.drop rc) := by
  rcases hshape with h | ⟨y, rest', b, hbook, _, _, hbk⟩
  · rw [h]
    exact hp.sublist (List.drop_sublist _ _)
  · rw [hbk]
    have hdp := hp.sublist (List.drop_sublist rc book)
    rw [hbook] at hdp
    rcases List.pairwise_cons.mp hdp with ⟨hy, hrest⟩
    exact List.pairwise_cons.mpr ⟨fun z hz => (hamt y b z).mpr (hy z hz), hrest⟩

/-- Every order left in the book after the drain has the key fields of an
order of the original book, with an amount no larger. -/
theorem mem_after_sweep {book bk2 : List LimitOrder} {rc : Nat}
    (hshape : bk2.drop rc = book.drop rc ∨
       ∃ y rest' b, book.drop rc = y :: rest' ∧ b < y.amount ∧ 0 < b ∧
         bk2.drop rc = { y with amount := b } :: rest') :
    ∀ x ∈ bk2.drop rc, ∃ x₀ ∈ book,
      x.price = x₀.price ∧ x.nonce = x₀.nonce ∧ x.amount ≤ x₀.amount := by
  rcases hshape with h | ⟨y, rest', b, hbook, hblt, _, hbk⟩
  · intro x hx
    rw [h] at hx
    exact ⟨x, List.drop_subset rc book hx, rfl, rfl, le_refl _⟩
  · intro x hx
    rw [hbk] at hx
    have hysub : y :: rest' ⊆ book := by
      rw [← hbook]
      exact List.drop_subset rc book
    rcases List.mem_cons.mp hx with rfl | hx'
    · exact ⟨y, hysub (List.mem_cons_self y rest'), rfl, rfl, le_of_lt hblt⟩
    · exact ⟨x, hysub (List.mem_cons_of_mem y hx'), rfl, rfl, le_refl _⟩

/-- The drained book contains no exhausted order, provided the original
book contained none. -/
theorem pos_after_sweep {book bk2 : List LimitOrder} {rc : Nat}
    (hshape : bk2.drop rc = book.drop rc ∨
       ∃ y rest' b, book.drop rc = y :: rest' ∧ b < y.amount ∧ 0 < b ∧
         bk2.drop rc = { y with amount := b } :: rest')
    (hpos : ∀ x ∈ book, 0 < x.amount) :
    ∀ x ∈ bk2.drop rc, 0 < x.amount := by
  rcases hshape with h | ⟨y, rest', b, hbook, _, hbpos, hbk⟩
  · intro x hx
    rw [h] at hx
    exact hpos x (List.drop_subset rc book hx)
  · intro x hx
    rw [hbk] at hx
    have hysub : y :: rest' ⊆ book := by
      rw [← hbook]
      exact List.drop_subset rc book
    rcases List.mem_cons.mp hx with rfl | hx'
    · exact hbpos
    · exact hpos x (hysub (List.mem_cons_of_mem y hx'))

/-- When the incoming order is left unfilled, no order remaining in the
(sorted) book crosses it. -/
theorem unfilled_fails_all {lt' : LimitOrder → LimitOrder → Prop}
    {tryf : LimitOrder → LimitOrder → Option ((Fill × Fill) × LimitOrder × LimitOrder)}
    {bk2 : List LimitOrder} {rc : Nat} {ord2 : LimitOrder}
    (hmono : ∀ a z o, lt' a z → tryf a o = none → tryf z o = none)
    (hsorted : List.Pairwise lt' (bk2.drop rc))
    (hE : bk2.drop rc = [] ∨ ∃ s' t', bk2.drop rc = s' :: t' ∧ tryf s' ord2 = none) :
    ∀ s ∈ bk2.drop rc, tryf s ord2 = none := by
  rcases hE with h | ⟨s', t', hcons, hnone⟩
  · intro s hs
    rw [h] at hs
    exact absurd hs (List.not_mem_nil s)
  · intro s hs
    rw [hcons] at hs hsorted
    rcases List.pairwise_cons.mp hsorted with ⟨hs', _⟩
    rcases List.mem_cons.mp hs with rfl | hs''
    · exact hnone
    · exact hmono s' s ord2 (hs' s hs'') hnone

theorem sellLt_amount_left (a : LimitOrder) (n : Nat) (z : LimitOrder) :
    sellLt { a with amount := n } z ↔ sellLt a z := Iff.rfl

theorem buyLt_amount_left (a : LimitOrder) (n : Nat) (z : LimitOrder) :
    buyLt { a with amount := n } z ↔ buyLt a z := Iff.rfl

/-- Monotone crossing failure along the sell book order. -/
theorem sell_mono_fail (a z o : LimitOrder) (hlt : sellLt a z)
    (h : SellLimitOrder.try_fill a o = none) : SellLimitOrder.try_fill z o = none := by
  rw [sell_try_fill_none_iff] at h ⊢
  unfold sellLt at hlt
  rw [sell_cmp_lt_iff] at hlt
  omega

/-- Monotone crossing failure along the buy book order. -/
theorem buy_mono_fail (a z o : LimitOrder) (hlt : buyLt a z)
    (h : BuyLimitOrder.try_fill a o = none) : BuyLimitOrder.try_fill z o = none := by
  rw [buy_try_fill_none_iff] at h ⊢
  unfold buyLt at hlt
  rw [buy_cmp_lt_iff] at hlt
  omega

end SweepFacts

section MarketInvariant

theorem inv_default : Inv Market.default := by
  refine ⟨List.Pairwise.nil, List.Pairwise.nil, ?_, ?_, ?_, ?_, ?_⟩ <;>
    intro o ho <;> exact absurd ho (List.not_mem_nil o)

theorem inv_step {m : Market} {t a : Nat} {p : Int} {s : OrderSide}
    {fills : List Fill} {m' : Market}
    (hm : Inv m) (h : Market.submit_order m t a p s = some (fills, m')) : Inv m' := by
  obtain ⟨hpb, hps, hcross, hposb, hposs, hnb, hns⟩ := hm
  by_cases ha : a = 0
  · rw [ha] at h
    simp only [Market.submit_order, if_pos rfl, Option.some.injEq, Prod.mk.injEq] at h
    obtain ⟨rfl, rfl⟩ := h
    exact ⟨hpb, hps, hcross, hposb, hposs, hnb, hns⟩
  · cases s with
    | Buy =>
      simp only [Market.submit_order, if_neg ha] at h
      rcases hsw : OrderBook.sweep SellLimitOrder.try_fill m.sells
          { price := p, nonce := m.nonce, amount := a, trader_id := t } with
        ⟨fl, rc, bk2, ord2⟩
      rw [submit_order_eq, hsw] at h
      simp only at h
      obtain ⟨hA, _, _, hD, hE⟩ :=
        sweep_spec sell_isFillFn m.sells _ fl rc bk2 ord2 ha hsw
      have hsorted2 : List.Pairwise sellLt (bk2.drop rc) :=
        sorted_after_sweep sellLt_amount_left hps hD.2
      by_cases hoz : ord2.amount = 0
      · rw [if_pos hoz] at h
        simp only [Option.some.injEq, Prod.mk.injEq] at h
        obtain ⟨rfl, rfl⟩ := h
        refine ⟨hpb, hsorted2, ?_, hposb, pos_after_sweep hD.2 hposs, ?_, ?_⟩
        · intro b hb s hs
          obtain ⟨s₀, hs₀, hpeq, _, _⟩ := mem_after_sweep hD.2 s hs
          rw [hpeq]
          exact hcross b hb s₀ hs₀
        · intro o ho
          exact Nat.lt_succ_of_lt (hnb o ho)
        · intro o ho
          obtain ⟨o₀, ho₀, _, hneq, _⟩ := mem_after_sweep hD.2 o ho
          rw [hneq]
          exact Nat.lt_succ_of_lt (hns o₀ ho₀)
      · rw [if_neg hoz] at h
        simp only [Option.some.injEq, Prod.mk.injEq] at h
        rcases hins : OrderBook.insert_order BuyLimitOrder.cmp m.buys ord2 with _ | buys2
        · rw [hins] at h
          simp at h
        · rw [hins] at h
          simp only [Option.some.injEq, Prod.mk.injEq] at h
          obtain ⟨rfl, rfl⟩ := h
          have hperm := insert_order_perm hins
          have hfails := unfilled_fails_all sell_mono_fail hsorted2 (hE hoz)
          refine ⟨?_, hsorted2, ?_, ?_, pos_after_sweep hD.2 hposs, ?_, ?_⟩
          · exact insert_order_sorted buy_cmp_gt_iff
              (fun a b c h1 h2 => buyLt_trans h1 h2) hpb hins
          · intro b hb s hs
            rcases List.mem_cons.mp (hperm.subset hb) with rfl | hb'
            · have := hfails s hs
              rw [sell_try_fill_none_iff] at this
              exact this
            · obtain ⟨s₀, hs₀, hpeq, _, _⟩ := mem_after_sweep hD.2 s hs
              rw [hpeq]
              exact hcross b hb' s₀ hs₀
          · intro o ho
            rcases List.mem_cons.mp (hperm.subset ho) with rfl | ho'
            · exact Nat.pos_of_ne_zero hoz
            · exact hposb o ho'
          · intro o ho
            rcases List.mem_cons.mp (hperm.subset ho) with rfl | ho'
            · rw [hA.2.1]
              exact Nat.lt_succ_self _
            · exact Nat.lt_succ_of_lt (hnb o ho')
          · intro o ho
            obtain ⟨o₀, ho₀, _, hneq, _⟩ := mem_after_sweep hD.2 o ho
            rw [hneq]
            exact Nat.lt_succ_of_lt (hns o₀ ho₀)
    | Sell =>
      simp only [Market.submit_order, if_neg ha] at h
      rcases hsw : OrderBook.sweep BuyLimitOrder.try_fill m.buys
          { price := p, nonce := m.nonce, amount := a, trader_id := t } with
        ⟨fl, rc, bk2, ord2⟩
      rw [submit_order_eq, hsw] at h
      simp only at h
      obtain ⟨hA, _, _, hD, hE⟩ :=
        sweep_spec buy_isFillFn m.buys _ fl rc bk2 ord2 ha hsw
      have hsorted2 : List.Pairwise buyLt (bk2.drop rc) :=
        sorted_after_sweep buyLt_amount_left hpb hD.2
      by_cases hoz : ord2.amount = 0
      · rw [if_pos hoz] at h
        simp only [Option.some.injEq, Prod.mk.injEq] at h
        obtain ⟨rfl, rfl⟩ := h
        refine ⟨hsorted2, hps, ?_, pos_after_sweep hD.2 hposb, hposs, ?_, ?_⟩
        · intro b hb s hs
          obtain ⟨b₀, hb₀, hpeq, _, _⟩ := mem_after_sweep hD.2 b hb
          rw [hpeq]
          exact hcross b₀ hb₀ s hs
        · intro o ho
          obtain ⟨o₀, ho₀, _, hneq, _⟩ := mem_after_sweep hD.2 o ho
          rw [hneq]
          exact Nat.lt_succ_of_lt (hnb o₀ ho₀)
        · intro o ho
          exact Nat.lt_succ_of_lt (hns o ho)
      · rw [if_neg hoz] at h
        simp only [Option.some.injEq, Prod.mk.injEq] at h
        rcases hins : OrderBook.insert_order SellLimitOrder.cmp m.sells ord2 with _ | sells2
        · rw [hins] at h
          simp at h
        · rw [hins] at h
          simp only [Option.some.injEq, Prod.mk.injEq] at h
          obtain ⟨rfl, rfl⟩ := h
          have hperm := insert_order_perm hins
          have hfails := unfilled_fails_all buy_mono_fail hsorted2 (hE hoz)
          refine ⟨hsorted2, ?_, ?_, pos_after_sweep hD.2 hposb, ?_, ?_, ?_⟩
          · exact insert_order_sorted sell_cmp_gt_iff
              (fun a b c h1 h2 => sellLt_trans h1 h2) hps hins
          · intro b hb s hs
            rcases List.mem_cons.mp (hperm.subset hs) with rfl | hs'
            · have := hfails b hb
              rw [buy_try_fill_none_iff] at this
              exact this
            · obtain ⟨b₀, hb₀, hpeq, _, _⟩ := mem_after_sweep hD.2 b hb
              rw [hpeq]
              exact hcross b₀ hb₀ s hs'
          · intro o ho
            rcases List.mem_cons.mp (hperm.subset ho) with rfl | ho'
            · exact Nat.pos_of_ne_zero hoz
            · exact hposs o ho'
          · intro o ho
            obtain ⟨o₀, ho₀, _, hneq, _⟩ := mem_after_sweep hD.2 o ho
            rw [hneq]
            exact Nat.lt_succ_of_lt (hnb o₀ ho₀)
          · intro o ho
            rcases List.mem_cons.mp (hperm.subset ho) with rfl | ho'
            · rw [hA.2.1]
              exact Nat.lt_succ_self _
            · exact Nat.lt_succ_of_lt (hns o ho')

/-- Every reachable market state satisfies the invariant. -/
theorem reachable_inv {m : Market} (h : Reachable m) : Inv m := by
  induction h with
  | default => exact inv_default
  | step _ hsub ih => exact inv_step ih hsub

end MarketInvariant

section ClaimHelpers

theorem head?_mem {l : List LimitOrder} {x : LimitOrder} (h : l.head? = some x) : x ∈ l := by
  cases l with
  | nil => exact absurd h (by simp)
  | cons y ys =>
    simp only [List.head?_cons, Option.some.injEq] at h
    rw [← h]
    exact List.mem_cons_self y ys

theorem listAmount_drop_zeros (l : List LimitOrder) (n : Nat)
    (hz : ∀ x ∈ l.take n, x.amount = 0) : listAmount (l.drop n) = listAmount l := by
  have hsplit : listAmount (l.take n) + listAmount (l.drop n) = listAmount l := by
    unfold listAmount
    rw [← List.sum_append, ← List.map_append, List.take_append_drop]
  have hz' : listAmount (l.take n) = 0 := by
    unfold listAmount
    apply List.sum_eq_zero
    intro x hx
    rcases List.mem_map.mp hx with ⟨o, ho, rfl⟩
    exact hz o ho
  omega

theorem listAmount_perm {l l' : List LimitOrder} (h : l.Perm l') :
    listAmount l = listAmount l' := by
  unfold listAmount
  exact (h.map LimitOrder.amount).sum_eq

theorem buy_lt_eq_trans (a b c : LimitOrder) (h1 : BuyLimitOrder.cmp a b = .lt)
    (h2 : BuyLimitOrder.cmp b c = .eq) : BuyLimitOrder.cmp a c = .lt := by
  rw [buy_cmp_lt_iff] at h1 ⊢
  rw [buy_cmp_eq_iff] at h2
  omega

theorem sell_lt_eq_trans (a b c : LimitOrder) (h1 : SellLimitOrder.cmp a b = .lt)
    (h2 : SellLimitOrder.cmp b c = .eq) : SellLimitOrder.cmp a c = .lt := by
  rw [sell_cmp_lt_iff] at h1 ⊢
  rw [sell_cmp_eq_iff] at h2
  omega

theorem sideTryFill_isFillFn (σ : OrderSide) : IsFillFn σ (sideTryFill σ) := by
  cases σ with
  | Buy => exact buy_isFillFn
  | Sell => exact sell_isFillFn

/-- Destructuring a successful non-trivial `Market::submit_order`: the
opposite book is swept with the fresh order, the fills are the sweep's
fills, the nonce advances, and the remainder (if any) is inserted into
the own book. -/
theorem market_submit_destruct {m : Market} {t a : Nat} {p : Int} {side : OrderSide}
    {fills : List Fill} {m' : Market} (ha : ¬ a = 0)
    (h : Market.submit_order m t a p side = some (fills, m')) :
    ∃ fl rc bk2 ord2,
      OrderBook.sweep (sideTryFill side.opposite) (m.book side.opposite)
        { price := p, nonce := m.nonce, amount := a, trader_id := t } = (fl, rc, bk2, ord2) ∧
      fills = fl ∧ m'.nonce = m.nonce + 1 ∧ m'.book side.opposite = bk2.drop rc ∧
      ((ord2.amount = 0 ∧ m'.book side = m.book side) ∨
       (¬ ord2.amount = 0 ∧
         OrderBook.insert_order (sideCmp side) (m.book side) ord2 = some (m'.book side))) := by
  cases side with
  | Buy =>
    simp only [Market.submit_order, if_neg ha] at h
    rcases hsw : OrderBook.sweep SellLimitOrder.try_fill m.sells
        { price := p, nonce := m.nonce, amount := a, trader_id := t } with
      ⟨fl, rc, bk2, ord2⟩
    rw [submit_order_eq, hsw] at h
    simp only at h
    refine ⟨fl, rc, bk2, ord2, hsw, ?_⟩
    by_cases hoz : ord2.amount = 0
    · rw [if_pos hoz] at h
      simp only [Option.some.injEq, Prod.mk.injEq] at h
      obtain ⟨rfl, rfl⟩ := h
      exact ⟨rfl, rfl, rfl, Or.inl ⟨hoz, rfl⟩⟩
    · rw [if_neg hoz] at h
      simp only [Option.some.injEq, Prod.mk.injEq] at h
      rcases hins : OrderBook.insert_order BuyLimitOrder.cmp m.buys ord2 with _ | buys2
      · rw [hins] at h
        simp at h
      · rw [hins] at h
        simp only [Option.some.injEq, Prod.mk.injEq] at h
        obtain ⟨rfl, rfl⟩ := h
        exact ⟨rfl, rfl, rfl, Or.inr ⟨hoz, hins⟩⟩
  | Sell =>
    simp only [Market.submit_order, if_neg ha] at h
    rcases hsw : OrderBook.sweep BuyLimitOrder.try_fill m.buys
        { price := p, nonce := m.nonce, amount := a, trader_id := t } with
      ⟨fl, rc, bk2, ord2⟩
    rw [submit_order_eq, hsw] at h
    simp only at h
    refine ⟨fl, rc, bk2, ord2, hsw, ?_⟩
    by_cases hoz : ord2.amount = 0
    · rw [if_pos hoz] at h
      simp only [Option.some.injEq, Prod.mk.injEq] at h
      obtain ⟨rfl, rfl⟩ := h
      exact ⟨rfl, rfl, rfl, Or.inl ⟨hoz, rfl⟩⟩
    · rw [if_neg hoz] at h
      simp only [Option.some.injEq, Prod.mk.injEq] at h
      rcases hins : OrderBook.insert_order SellLimitOrder.cmp m.sells ord2 with _ | sells2
      · rw [hins] at h
        simp at h
      · rw [hins] at h
        simp only [Option.some.injEq, Prod.mk.injEq] at h
        obtain ⟨rfl, rfl⟩ := h
        exact ⟨rfl, rfl, rfl, Or.inr ⟨hoz, hins⟩⟩

end ClaimHelpers

section ReachableDemos

theorem mDemo1_eq : Market.submit_order Market.default 1 10 5 .Buy = some ([], mDemo1) := by
  decide

theorem mDemo2_eq : Market.submit_order mDemo1 2 10 7 .Sell = some ([], mDemo2) := by
  decide

theorem mDemo1_reachable : Reachable mDemo1 :=
  Reachable.step Reachable.default mDemo1_eq

theorem mDemo2_reachable : Reachable mDemo2 :=
  Reachable.step mDemo1_reachable mDemo2_eq

end ReachableDemos

/-- C2: after any sequence of `Market::submit_order` calls from
`Market::default()`, whenever both books are non-empty the price of the
front (best) resting buy is strictly less than the price of the front
(best) resting sell — the books never cross at rest. -/
theorem no_self_crossing {m : Market} (hr : Reachable m) (b s : LimitOrder)
    (hb : m.buys.head? = some b) (hs : m.sells.head? = some s) : b.price < s.price := by
  obtain ⟨_, _, hcross, _⟩ := reachable_inv hr
  exact hcross b (head?_mem hb) s (head?_mem hs)

/-- Witness for C2 at a concrete reachable two-sided market. -/
theorem no_self_crossing_witness :
    ({ price := 5, nonce := 0, amount := 10, trader_id := 1 } : LimitOrder).price <
      ({ price := 7, nonce := 1, amount := 10, trader_id := 2 } : LimitOrder).price :=
  no_self_crossing mDemo2_reachable _ _ rfl rfl

/-- C3: `try_fill` semantics.  For a resting/incoming pair of positive
amounts: when the crossing condition `buy.price >= sell.price` holds,
both side-typed `try_fill`s return a Fill pair whose common amount is the
minimum of the two amounts and whose common price is the resting order's
price, with trader/counter-party swapped between the two fills, each
fill's side being its party's side, and that amount subtracted from both
orders; when the crossing condition fails they return `none` (leaving the
orders unchanged). -/
theorem try_fill_semantics (b s : LimitOrder) (hb : 0 < b.amount) (hs : 0 < s.amount) :
    (s.price ≤ b.price →
      BuyLimitOrder.try_fill b s =
        some ((Fill.new (min b.amount s.amount) b.price .Buy b.trader_id s.trader_id,
               Fill.new (min b.amount s.amount) b.price .Sell s.trader_id b.trader_id),
              { b with amount := b.amount - min b.amount s.amount },
              { s with amount := s.amount - min b.amount s.amount })) ∧
    (b.price < s.price → BuyLimitOrder.try_fill b s = none) ∧
    (s.price ≤ b.price →
      SellLimitOrder.try_fill s b =
        some ((Fill.new (min s.amount b.amount) s.price .Sell s.trader_id b.trader_id,
               Fill.new (min s.amount b.amount) s.price .Buy b.trader_id s.trader_id),
              { s with amount := s.amount - min s.amount b.amount },
              { b with amount := b.amount - min s.amount b.amount })) ∧
    (b.price < s.price → SellLimitOrder.try_fill s b = none) := by
  refine ⟨?_, ?_, ?_, ?_⟩
  · intro hpr
    unfold BuyLimitOrder.try_fill
    rw [if_pos hpr, try_fill_eq]
    have e1 : b.amount - s.amount = b.amount - min b.amount s.amount := by omega
    have e2 : s.amount - b.amount = s.amount - min b.amount s.amount := by omega
    rw [e1, e2]
    rfl
  · intro hpr
    rw [buy_try_fill_none_iff]
    exact hpr
  · intro hpr
    unfold SellLimitOrder.try_fill
    rw [if_pos hpr, try_fill_eq]
    have e1 : s.amount - b.amount = s.amount - min s.amount b.amount := by omega
    have e2 : b.amount - s.amount = b.amount - min s.amount b.amount := by omega
    rw [e1, e2]
    rfl
  · intro hpr
    rw [sell_try_fill_none_iff]
    exact hpr

/-- Witness for C3: a resting buy at price 5 (amount 10) against an
incoming sell at price 3 (amount 4) trades 4 units at price 5. -/
theorem try_fill_semantics_witness :
    BuyLimitOrder.try_fill { price := 5, nonce := 0, amount := 10, trader_id := 1 }
        { price := 3, nonce := 1, amount := 4, trader_id := 2 } =
      some ((Fill.new 4 5 .Buy 1 2, Fill.new 4 5 .Sell 2 1),
            { price := 5, nonce := 0, amount := 6, trader_id := 1 },
            { price := 3, nonce := 1, amount := 0, trader_id := 2 }) := by
  have h := (try_fill_semantics { price := 5, nonce := 0, amount := 10, trader_id := 1 }
    { price := 3, nonce := 1, amount := 4, trader_id := 2 } (by decide) (by decide)).1
    (by decide)
  rw [h]
  rfl

/-- C6: submitting `amount == 0` returns an empty fill list and leaves the
whole market (both books and the sequence counter) unchanged; submitting
`amount > 0` advances the sequence counter by exactly one, regardless of
how many fills occurred. -/
theorem zero_amount_noop (m : Market) (t : Nat) (p : Int) (side : OrderSide) :
    Market.submit_order m t 0 p side = some ([], m) ∧
    (∀ (a : Nat) (fills : List Fill) (m' : Market), 0 < a →
      Market.submit_order m t a p side = some (fills, m') →
      m'.nonce = m.nonce + 1) := by
  constructor
  · simp [Market.submit_order]
  · intro a fills m' ha h
    obtain ⟨fl, rc, bk2, ord2, _, _, hn, _⟩ := market_submit_destruct (by omega) h
    exact hn

/-- Witness for C6: the zero-amount no-op on `Market::default()`, and a
positive submission advancing the nonce from 0 to 1. -/
theorem zero_amount_noop_witness :
    Market.submit_order Market.default 1 0 5 .Buy = some ([], Market.default) ∧
    mDemo1.nonce = Market.default.nonce + 1 :=
  ⟨(zero_amount_noop Market.default 1 5 .Buy).1,
   (zero_amount_noop Market.default 1 5 .Buy).2 10 [] mDemo1 (by decide) mDemo1_eq⟩

/-- C1: quantity conservation for every successful positive-amount
submission: the buy-side and sell-side fill amounts in the returned list
sum to the same total; the incoming order's own book gains exactly the
submitted amount minus the amount consumed by fills; and the opposite
book's total resting amount decreases by exactly the fill amount recorded
against its resting orders. -/
theorem quantity_conservation (m : Market) (t a : Nat) (p : Int) (side : OrderSide)
    (fills : List Fill) (m' : Market) (ha : 0 < a)
    (h : Market.submit_order m t a p side = some (fills, m')) :
    sumSide .Buy fills = sumSide .Sell fills ∧
    listAmount (m'.book side) + sumSide side fills = listAmount (m.book side) + a ∧
    listAmount (m.book side.opposite) =
      listAmount (m'.book side.opposite) + sumSide side.opposite fills := by
  have ha0 : ¬ a = 0 := by omega
  obtain ⟨fl, rc, bk2, ord2, hsw, rfl, hn, hopp, hown⟩ :=
    market_submit_destruct ha0 h
  obtain ⟨hA, _, hC, hD, _⟩ :=
    sweep_spec (sideTryFill_isFillFn side.opposite) (m.book side.opposite) _ fills rc bk2 ord2
      ha0 hsw
  have hoo : side.opposite.opposite = side := opposite_opposite side
  have hC3 : ord2.amount + sumSide side fills = a := by
    have h3 := hC.2.2
    rw [hoo] at h3
    exact h3
  have hdrop : listAmount (bk2.drop rc) = listAmount bk2 :=
    listAmount_drop_zeros bk2 rc hD.1
  have hoppeq : listAmount (m'.book side.opposite) + sumSide side.opposite fills =
      listAmount (m.book side.opposite) := by
    rw [hopp, hdrop]
    exact hC.2.1
  have hown' : listAmount (m'.book side) + sumSide side fills =
      listAmount (m.book side) + a := by
    rcases hown with ⟨hz, heq⟩ | ⟨hnz, hins⟩
    · rw [heq]
      omega
    · have hla : listAmount (m'.book side) = listAmount (ord2 :: m.book side) :=
        listAmount_perm (insert_order_perm hins)
      simp only [listAmount, List.map_cons, List.sum_cons] at hla
      simp only [listAmount] at *
      omega
  have hbs : sumSide .Buy fills = sumSide .Sell fills := by
    have h1 := hC.1
    rw [hoo] at h1
    cases side with
    | Buy =>
      simp only [OrderSide.opposite] at h1
      exact h1.symm
    | Sell =>
      simp only [OrderSide.opposite] at h1
      exact h1
  exact ⟨hbs, hown', hoppeq.symm⟩

/-- Witness for C1: submitting 10 units at price 5 on the buy side of the
empty market. -/
theorem quantity_conservation_witness :
    sumSide .Buy [] = sumSide .Sell [] ∧
    listAmount (mDemo1.book .Buy) + sumSide .Buy [] =
      listAmount (Market.default.book .Buy) + 10 ∧
    listAmount (Market.default.book OrderSide.Buy.opposite) =
      listAmount (mDemo1.book OrderSide.Buy.opposite) + sumSide OrderSide.Buy.opposite [] :=
  quantity_conservation Market.default 1 10 5 .Buy [] mDemo1 (by decide) mDemo1_eq

/-- C4: order-book invariants.  Every reachable market has both books
sorted best-first by the side's strict order with no zero-amount order;
`OrderBook::insert_order` preserves sortedness; and
`OrderBook::submit_order` preserves sortedness and positivity and removes
exactly a contiguous front prefix of the book (at most reducing the
amount of the new front order, which stays positive). -/
theorem book_invariants :
    (∀ m, Reachable m →
      (List.Pairwise buyLt m.buys ∧ ∀ o ∈ m.buys, 0 < o.amount) ∧
      (List.Pairwise sellLt m.sells ∧ ∀ o ∈ m.sells, 0 < o.amount)) ∧
    (∀ (book : List LimitOrder) (o : LimitOrder) (book' : List LimitOrder),
      List.Pairwise buyLt book →
      OrderBook.insert_order BuyLimitOrder.cmp book o = some book' →
      List.Pairwise buyLt book') ∧
    (∀ (book : List LimitOrder) (o : LimitOrder) (book' : List LimitOrder),
      List.Pairwise sellLt book →
      OrderBook.insert_order SellLimitOrder.cmp book o = some book' →
      List.Pairwise sellLt book') ∧
    (∀ (σ : OrderSide) (book : List LimitOrder) (order : LimitOrder)
       (fl : List Fill) (bk : List LimitOrder) (rem : Option LimitOrder),
      order.amount ≠ 0 →
      OrderBook.submit_order (sideTryFill σ) book order = (fl, bk, rem) →
      (List.Pairwise (fun x y => sideCmp σ x y = .lt) book →
        List.Pairwise (fun x y => sideCmp σ x y = .lt) bk) ∧
      ((∀ x ∈ book, 0 < x.amount) → ∀ x ∈ bk, 0 < x.amount) ∧
      (∃ k, bk = book.drop k ∨
        ∃ y rest' c, book.drop k = y :: rest' ∧ c < y.amount ∧ 0 < c ∧
          bk = { y with amount := c } :: rest')) := by
  refine ⟨?_, ?_, ?_, ?_⟩
  · intro m hr
    obtain ⟨hpb, hps, _, hposb, hposs, _, _⟩ := reachable_inv hr
    exact ⟨⟨hpb, hposb⟩, ⟨hps, hposs⟩⟩
  · intro book o book' hp hins
    exact insert_order_sorted buy_cmp_gt_iff (fun x y z h1 h2 => buyLt_trans h1 h2) hp hins
  · intro book o book' hp hins
    exact insert_order_sorted sell_cmp_gt_iff (fun x y z h1 h2 => sellLt_trans h1 h2) hp hins
  · intro σ book order fl bk rem hno hsub
    rw [submit_order_eq] at hsub
    rcases hsw : OrderBook.sweep (sideTryFill σ) book order with ⟨fl2, rc, bk2, ord2⟩
    rw [hsw] at hsub
    simp only [Prod.mk.injEq] at hsub
    obtain ⟨_, hbk, _⟩ := hsub
    obtain ⟨_, _, _, hD, _⟩ :=
      sweep_spec (sideTryFill_isFillFn σ) book order fl2 rc bk2 ord2 hno hsw
    have hamt : ∀ (x : LimitOrder) (n : Nat) (z : LimitOrder),
        (fun x y => sideCmp σ x y = .lt) { x with amount := n } z ↔
        (fun x y => sideCmp σ x y = .lt) x z := by
      cases σ with
      | Buy => exact buyLt_amount_left
      | Sell => exact sellLt_amount_left
    refine ⟨?_, ?_, ⟨rc, ?_⟩⟩
    · intro hp
      rw [← hbk]
      exact sorted_after_sweep hamt hp hD.2
    · intro hp
      rw [← hbk]
      exact pos_after_sweep hD.2 hp
    · rw [← hbk]
      rcases hD.2 with hl | ⟨y, rest', c, hby, hlt, hcp, hbk2⟩
      · exact Or.inl hl
      · exact Or.inr ⟨y, rest', c, hby, hlt, hcp, hbk2⟩

/-- Witness for C4: the invariants at a reachable two-sided market, a
concrete sorted insertion, and a concrete submit that partially fills the
front buy order. -/
theorem book_invariants_witness :
    ((List.Pairwise buyLt mDemo2.buys ∧ ∀ o ∈ mDemo2.buys, 0 < o.amount) ∧
     (List.Pairwise sellLt mDemo2.sells ∧ ∀ o ∈ mDemo2.sells, 0 < o.amount)) ∧
    List.Pairwise buyLt [{ price := 5, nonce := 0, amount := 10, trader_id := 1 }] ∧
    ((List.Pairwise (fun x y => sideCmp .Buy x y = .lt)
        [{ price := 5, nonce := 0, amount := 10, trader_id := 1 }] →
      List.Pairwise (fun x y => sideCmp .Buy x y = .lt)
        [{ price := 5, nonce := 0, amount := 6, trader_id := 1 }]) ∧
     ((∀ x ∈ [({ price := 5, nonce := 0, amount := 10, trader_id := 1 } : LimitOrder)],
         0 < x.amount) →
       ∀ x ∈ [({ price := 5, nonce := 0, amount := 6, trader_id := 1 } : LimitOrder)],
         0 < x.amount) ∧
     (∃ k, [({ price := 5, nonce := 0, amount := 6, trader_id := 1 } : LimitOrder)] =
         [({ price := 5, nonce := 0, amount := 10, trader_id := 1 } : LimitOrder)].drop k ∨
       ∃ y rest' c,
         [({ price := 5, nonce := 0, amount := 10, trader_id := 1 } : LimitOrder)].drop k
             = y :: rest' ∧
           c < y.amount ∧ 0 < c ∧
           [({ price := 5, nonce := 0, amount := 6, trader_id := 1 } : LimitOrder)] =
             { y with amount := c } :: rest')) := by
  refine ⟨book_invariants.1 mDemo2 mDemo2_reachable, ?_, ?_⟩
  · exact book_invariants.2.1 [] { price := 5, nonce := 0, amount := 10, trader_id := 1 }
      [{ price := 5, nonce := 0, amount := 10, trader_id := 1 }] (by simp) rfl
  · exact book_invariants.2.2.2 .Buy
      [{ price := 5, nonce := 0, amount := 10, trader_id := 1 }]
      { price := 1, nonce := 9, amount := 4, trader_id := 2 }
      [Fill.new 4 5 .Buy 1 2, Fill.new 4 5 .Sell 2 1]
      [{ price := 5, nonce := 0, amount := 6, trader_id := 1 }] none
      (by decide) (by decide)

/-- C5: price-time priority.  A sell submitted to any reachable market
matches the resting buys front-to-back: the resting-perspective fill of
the i-th generated pair carries the price and trader of the i-th best
resting buy, and that matched prefix of the buy book is ordered by
strictly descending price with equal-price ties in ascending nonce
(submission) order; the fill list is returned in generation order. -/
theorem price_time_priority (m : Market) (hr : Reachable m) (t a : Nat) (p : Int)
    (fills : List Fill) (m' : Market)
    (h : Market.submit_order m t a p .Sell = some (fills, m')) :
    ∃ ps : List (Fill × Fill),
      fills = pairFills ps ∧
      List.Forall₂ (fun (q : Fill × Fill) (r : LimitOrder) =>
        q.1.price = r.price ∧ q.1.trader = r.trader_id) ps (m.buys.take ps.length) ∧
      List.Pairwise (fun x y => y.price < x.price ∨ (x.price = y.price ∧ x.nonce < y.nonce))
        (m.buys.take ps.length) := by
  by_cases ha : a = 0
  · subst ha
    simp only [Market.submit_order, if_pos rfl, Option.some.injEq, Prod.mk.injEq] at h
    obtain ⟨rfl, rfl⟩ := h
    refine ⟨[], rfl, ?_, ?_⟩
    · rw [List.length_nil, List.take_zero]
      exact List.Forall₂.nil
    · rw [List.length_nil, List.take_zero]
      exact List.Pairwise.nil
  · obtain ⟨fl, rc, bk2, ord2, hsw, rfl, _, _, _⟩ := market_submit_destruct ha h
    obtain ⟨_, ⟨ps, hps, hfa⟩, _, _, _⟩ :=
      sweep_spec (sideTryFill_isFillFn _) _ _ fills rc bk2 ord2 ha hsw
    refine ⟨ps, hps, ?_, ?_⟩
    · refine List.Forall₂.imp ?_ hfa
      intro q r hq
      obtain ⟨h1, _, _⟩ := hq
      constructor
      · rw [h1]
        rfl
      · rw [h1]
        rfl
    · obtain ⟨hpb, _⟩ := reachable_inv hr
      have hsub : List.Pairwise buyLt (m.buys.take ps.length) :=
        hpb.sublist (List.take_sublist _ _)
      exact hsub.imp (fun hxy => (buy_cmp_lt_iff _ _).mp hxy)

/-- Witness for C5: a sell for 4 units at price 1 matches the resting buy
at price 5 of a reachable market. -/
theorem price_time_priority_witness :
    ∃ ps : List (Fill × Fill),
      [Fill.new 4 5 .Buy 1 3, Fill.new 4 5 .Sell 3 1] = pairFills ps ∧
      List.Forall₂ (fun (q : Fill × Fill) (r : LimitOrder) =>
        q.1.price = r.price ∧ q.1.trader = r.trader_id) ps (mDemo2.buys.take ps.length) ∧
      List.Pairwise (fun x y => y.price < x.price ∨ (x.price = y.price ∧ x.nonce < y.nonce))
        (mDemo2.buys.take ps.length) :=
  price_time_priority mDemo2 mDemo2_reachable 3 4 1
    [Fill.new 4 5 .Buy 1 3, Fill.new 4 5 .Sell 3 1]
    { nonce := 3,
      buys := [{ price := 5, nonce := 0, amount := 6, trader_id := 1 }],
      sells := [{ price := 7, nonce := 1, amount := 10, trader_id := 2 }] }
    (by decide)

/-- C9: on a sorted book, `insert_order` fails exactly when an order with
the identical `(price, nonce)` key is already present; and on every
reachable market every submission succeeds (the `expect` panic and the
`Err` path are unreachable because sequence numbers are fresh). -/
theorem insert_duplicate_unreachable :
    (∀ (book : List LimitOrder) (o : LimitOrder), List.Pairwise buyLt book →
      (OrderBook.insert_order BuyLimitOrder.cmp book o = none ↔
        ∃ x ∈ book, x.price = o.price ∧ x.nonce = o.nonce)) ∧
    (∀ (book : List LimitOrder) (o : LimitOrder), List.Pairwise sellLt book →
      (OrderBook.insert_order SellLimitOrder.cmp book o = none ↔
        ∃ x ∈ book, x.price = o.price ∧ x.nonce = o.nonce)) ∧
    (∀ m, Reachable m → ∀ (t a : Nat) (p : Int) (s : OrderSide),
      ∃ r, Market.submit_order m t a p s = some r) := by
  refine ⟨?_, ?_, ?_⟩
  · intro book o hp
    rw [insert_order_none_iff buy_lt_eq_trans hp]
    constructor
    · intro ⟨x, hx, he⟩
      rw [buy_cmp_eq_iff] at he
      exact ⟨x, hx, he⟩
    · intro ⟨x, hx, he⟩
      exact ⟨x, hx, (buy_cmp_eq_iff x o).mpr he⟩
  · intro book o hp
    rw [insert_order_none_iff sell_lt_eq_trans hp]
    constructor
    · intro ⟨x, hx, he⟩
      rw [sell_cmp_eq_iff] at he
      exact ⟨x, hx, he⟩
    · intro ⟨x, hx, he⟩
      exact ⟨x, hx, (sell_cmp_eq_iff x o).mpr he⟩
  · intro m hr t a p s
    obtain ⟨hpb, hps, _, _, _, hnb, hns⟩ := reachable_inv hr
    by_cases ha : a = 0
    · subst ha
      exact ⟨([], m), by simp [Market.submit_order]⟩
    · cases s with
      | Buy =>
        simp only [Market.submit_order, if_neg ha]
        rcases hsw : OrderBook.sweep SellLimitOrder.try_fill m.sells
            { price := p, nonce := m.nonce, amount := a, trader_id := t } with
          ⟨fl, rc, bk2, ord2⟩
        rw [submit_order_eq, hsw]
        simp only
        by_cases hoz : ord2.amount = 0
        · rw [if_pos hoz]
          exact ⟨_, rfl⟩
        · rw [if_neg hoz]
          obtain ⟨hA, _, _, _, _⟩ :=
            sweep_spec sell_isFillFn m.sells _ fl rc bk2 ord2 ha hsw
          rcases hins : OrderBook.insert_order BuyLimitOrder.cmp m.buys ord2 with _ | buys2
          · exfalso
            obtain ⟨x, hx, he⟩ := (insert_order_none_iff buy_lt_eq_trans hpb).mp hins
            rw [buy_cmp_eq_iff] at he
            have h1 := hnb x hx
            have h2 : ord2.nonce = m.nonce := hA.2.1
            omega
          · exact ⟨(fl, { nonce := m.nonce + 1, buys := buys2, sells := bk2.drop rc }),
              by simp only [hins]⟩
      | Sell =>
        simp only [Market.submit_order, if_neg ha]
        rcases hsw : OrderBook.sweep BuyLimitOrder.try_fill m.buys
            { price := p, nonce := m.nonce, amount := a, trader_id := t } with
          ⟨fl, rc, bk2, ord2⟩
        rw [submit_order_eq, hsw]
        simp only
        by_cases hoz : ord2.amount = 0
        · rw [if_pos hoz]
          exact ⟨_, rfl⟩
        · rw [if_neg hoz]
          obtain ⟨hA, _, _, _, _⟩ :=
            sweep_spec buy_isFillFn m.buys _ fl rc bk2 ord2 ha hsw
          rcases hins : OrderBook.insert_order SellLimitOrder.cmp m.sells ord2 with _ | sells2
          · exfalso
            obtain ⟨x, hx, he⟩ := (insert_order_none_iff sell_lt_eq_trans hps).mp hins
            rw [sell_cmp_eq_iff] at he
            have h1 := hns x hx
            have h2 : ord2.nonce = m.nonce := hA.2.1
            omega
          · exact ⟨(fl, { nonce := m.nonce + 1, buys := bk2.drop rc, sells := sells2 }),
              by simp only [hins]⟩

/-- Witness for C9: a duplicate-key insertion fails on a singleton book,
and a concrete submission on a reachable market succeeds. -/
theorem insert_duplicate_unreachable_witness :
    OrderBook.insert_order BuyLimitOrder.cmp
        [{ price := 5, nonce := 0, amount := 10, trader_id := 1 }]
        { price := 5, nonce := 0, amount := 3, trader_id := 9 } = none ∧
    ∃ r, Market.submit_order mDemo2 3 4 1 .Sell = some r := by
  constructor
  · exact (insert_duplicate_unreachable.1
      [{ price := 5, nonce := 0, amount := 10, trader_id := 1 }]
      { price := 5, nonce := 0, amount := 3, trader_id := 9 } (by simp)).mpr
      ⟨{ price := 5, nonce := 0, amount := 10, trader_id := 1 }, by simp, rfl, rfl⟩
  · exact insert_duplicate_unreachable.2.2 mDemo2 mDemo2_reachable 3 4 1 .Sell

/-- C10: the fills returned by `Market::submit_order` come in consecutive
pairs; in each pair the first fill is from the resting order's
perspective (its side is the resting side, its trader the resting
order's trader, its counter-party the incoming trader) and the second is
from the incoming order's perspective with the roles swapped and the same
amount and price. -/
theorem fill_pair_perspectives (m : Market) (t a : Nat) (p : Int) (side : OrderSide)
    (fills : List Fill) (m' : Market)
    (h : Market.submit_order m t a p side = some (fills, m')) :
    ∃ ps : List (Fill × Fill),
      fills = pairFills ps ∧
      List.Forall₂ (fun (q : Fill × Fill) (r : LimitOrder) =>
        q.1.side = side.opposite ∧ q.1.trader = r.trader_id ∧ q.1.counter_party = t ∧
        q.2.side = side ∧ q.2.trader = t ∧ q.2.counter_party = q.1.trader ∧
        q.2.amount = q.1.amount ∧ q.2.price = q.1.price)
        ps ((m.book side.opposite).take ps.length) := by
  by_cases ha : a = 0
  · subst ha
    simp only [Market.submit_order, if_pos rfl, Option.some.injEq, Prod.mk.injEq] at h
    obtain ⟨rfl, rfl⟩ := h
    refine ⟨[], rfl, ?_⟩
    rw [List.length_nil, List.take_zero]
    exact List.Forall₂.nil
  · obtain ⟨fl, rc, bk2, ord2, hsw, rfl, _, _, _⟩ := market_submit_destruct ha h
    obtain ⟨_, ⟨ps, hps, hfa⟩, _, _, _⟩ :=
      sweep_spec (sideTryFill_isFillFn side.opposite) _ _ fills rc bk2 ord2 ha hsw
    refine ⟨ps, hps, List.Forall₂.imp ?_ hfa⟩
    intro q r hq
    obtain ⟨h1, h2, _⟩ := hq
    refine ⟨?_, ?_, ?_, ?_, ?_, ?_, ?_, ?_⟩
    · rw [h1]
      rfl
    · rw [h1]
      rfl
    · rw [h1]
      rfl
    · rw [h2]
      exact opposite_opposite side
    · rw [h2]
      rfl
    · rw [h2, h1]
      rfl
    · rw [h2]
      rfl
    · rw [h2, h1]
      rfl

section NaiveSweep

theorem sweepNaive_zero
    (tryf : LimitOrder → LimitOrder → Option ((Fill × Fill) × LimitOrder × LimitOrder))
    (book : List LimitOrder) (order : LimitOrder) (h : order.amount = 0) :
    OrderBook.sweepNaive tryf book order = ([], book, order) := by
  cases book with
  | nil => rfl
  | cons x xs => simp only [OrderBook.sweepNaive, if_pos h]

theorem sweepNaive_allfail
    (tryf : LimitOrder → LimitOrder → Option ((Fill × Fill) × LimitOrder × LimitOrder)) :
    ∀ (book : List LimitOrder) (order : LimitOrder),
      (∀ x ∈ book, tryf x order = none) →
      OrderBook.sweepNaive tryf book order = ([], book, order) := by
  intro book
  induction book with
  | nil =>
    intro order _
    rfl
  | cons x xs ih =>
    intro order hall
    by_cases h : order.amount = 0
    · simp only [OrderBook.sweepNaive, if_pos h]
    · simp only [OrderBook.sweepNaive, if_neg h, hall x (List.mem_cons_self x xs)]
      rw [ih order (fun y hy => hall y (List.mem_cons_of_mem x hy))]

/-- Because the book is sorted and crossing failure is monotone along the
book order, the early-exit sweep computes exactly the fills, final book
and remainder of the naive full sweep. -/
theorem sweep_naive_agree {σ : OrderSide}
    {tryf : LimitOrder → LimitOrder → Option ((Fill × Fill) × LimitOrder × LimitOrder)}
    (hf : IsFillFn σ tryf) {lt' : LimitOrder → LimitOrder → Prop}
    (hmono : ∀ a z o, lt' a z → tryf a o = none → tryf z o = none) :
    ∀ (book : List LimitOrder) (order : LimitOrder),
      List.Pairwise lt' book → order.amount ≠ 0 →
      ∀ fills rc bk2 ord2, OrderBook.sweep tryf book order = (fills, rc, bk2, ord2) →
        OrderBook.sweepNaive tryf book order = (fills, bk2.drop rc, ord2) := by
  intro book
  induction book with
  | nil =>
    intro order _ _ fills rc bk2 ord2 h
    simp only [OrderBook.sweep, Prod.mk.injEq] at h
    obtain ⟨rfl, rfl, rfl, rfl⟩ := h
    rfl
  | cons resting rest ih =>
    intro order hp ho fills rc bk2 ord2 h
    rcases List.pairwise_cons.mp hp with ⟨hhead, htail⟩
    rcases htf : tryf resting order with _ | z
    · simp only [OrderBook.sweep, htf, Prod.mk.injEq] at h
      obtain ⟨rfl, rfl, rfl, rfl⟩ := h
      simp only [OrderBook.sweepNaive, if_neg ho, htf]
      rw [sweepNaive_allfail tryf rest order
        (fun y hy => hmono resting y order (hhead y hy) htf)]
      rfl
    · obtain ⟨⟨f0, f1⟩, resting', order'⟩ := z
      have hz := hf _ _ _ htf
      rw [try_fill_eq] at hz
      simp only [Prod.mk.injEq] at hz
      obtain ⟨⟨hf0, hf1⟩, hrst, hord⟩ := hz
      have hram : resting'.amount = resting.amount - order.amount := by rw [hrst]
      have hoam : order'.amount = order.amount - resting.amount := by rw [hord]
      simp only [OrderBook.sweep, htf] at h
      simp only [OrderBook.sweepNaive, if_neg ho, htf]
      by_cases ho' : order'.amount = 0
      · rw [if_pos ho'] at h
        simp only [Prod.mk.injEq] at h
        obtain ⟨rfl, rfl, rfl, rfl⟩ := h
        rw [sweepNaive_zero tryf rest order' ho']
        by_cases hz' : resting'.amount = 0
        · simp [hz']
        · simp [hz']
      · rw [if_neg ho'] at h
        rcases hrec : OrderBook.sweep tryf rest order' with ⟨fills2, rc2, bk2', ord2'⟩
        rw [hrec] at h
        simp only [Prod.mk.injEq] at h
        obtain ⟨rfl, rfl, rfl, rfl⟩ := h
        have hz0 : resting'.amount = 0 := by omega
        rw [ih order' htail ho' fills2 rc2 bk2' ord2' hrec]
        rw [if_pos hz0, if_pos hz0]
        have h12 : (1 : Nat) + rc2 = rc2 + 1 := Nat.add_comm 1 rc2
        rw [h12, List.drop_succ_cons]

end NaiveSweep

/-- C7: early-exit correctness.  On a sorted book (each side with its own
order) and a non-exhausted incoming order, the sweep that stops at the
first non-crossing resting order returns exactly the same fills, final
book and remainder as the naive sweep that attempts `try_fill` against
every resting order. -/
theorem early_exit_equivalence :
    (∀ (book : List LimitOrder) (order : LimitOrder),
      List.Pairwise sellLt book → order.amount ≠ 0 →
      OrderBook.submit_order SellLimitOrder.try_fill book order =
        OrderBook.submit_orderNaive SellLimitOrder.try_fill book order) ∧
    (∀ (book : List LimitOrder) (order : LimitOrder),
      List.Pairwise buyLt book → order.amount ≠ 0 →
      OrderBook.submit_order BuyLimitOrder.try_fill book order =
        OrderBook.submit_orderNaive BuyLimitOrder.try_fill book order) := by
  constructor
  · intro book order hp ho
    rcases hsw : OrderBook.sweep SellLimitOrder.try_fill book order with ⟨fl, rc, bk2, ord2⟩
    have hn := sweep_naive_agree sell_isFillFn sell_mono_fail book order hp ho fl rc bk2 ord2 hsw
    rw [submit_order_eq, hsw]
    unfold OrderBook.submit_orderNaive
    rw [hn]
    simp only
    by_cases hoz : ord2.amount = 0
    · rw [if_pos hoz, if_pos hoz]
    · rw [if_neg hoz, if_neg hoz]
  · intro book order hp ho
    rcases hsw : OrderBook.sweep BuyLimitOrder.try_fill book order with ⟨fl, rc, bk2, ord2⟩
    have hn := sweep_naive_agree buy_isFillFn buy_mono_fail book order hp ho fl rc bk2 ord2 hsw
    rw [submit_order_eq, hsw]
    unfold OrderBook.submit_orderNaive
    rw [hn]
    simp only
    by_cases hoz : ord2.amount = 0
    · rw [if_pos hoz, if_pos hoz]
    · rw [if_neg hoz, if_neg hoz]

/-- Witness for C7: a crossing incoming buy against a singleton sell book
is handled identically by the early-exit and naive sweeps. -/
theorem early_exit_equivalence_witness :
    OrderBook.submit_order SellLimitOrder.try_fill
        [{ price := 3, nonce := 0, amount := 5, trader_id := 1 }]
        { price := 4, nonce := 1, amount := 2, trader_id := 2 } =
      OrderBook.submit_orderNaive SellLimitOrder.try_fill
        [{ price := 3, nonce := 0, amount := 5, trader_id := 1 }]
        { price := 4, nonce := 1, amount := 2, trader_id := 2 } :=
  early_exit_equivalence.1 _ _ (by simp) (by decide)

section InsertAllFacts

/-- Inserting a duplicate-free list of orders one by one always succeeds
and produces the sorted arrangement of `book ++ l`. -/
theorem insertAll_sorted_perm {cmp : LimitOrder → LimitOrder → Ordering}
    (hgt : ∀ a b, cmp a b = .gt ↔ cmp b a = .lt)
    (htrans : ∀ a b c, cmp a b = .lt → cmp b c = .lt → cmp a c = .lt)
    (hlt_eq : ∀ a b c, cmp a b = .lt → cmp b c = .eq → cmp a c = .lt) :
    ∀ (l : List LimitOrder) (book : List LimitOrder),
      List.Pairwise (fun a b => cmp a b = .lt) book →
      (∀ x ∈ book, ∀ y ∈ l, cmp x y ≠ .eq) →
      List.Pairwise (fun a b => cmp a b ≠ .eq) l →
      ∃ b, OrderBook.insertAll cmp book l = some b ∧ b.Perm (book ++ l) ∧
        List.Pairwise (fun a b => cmp a b = .lt) b := by
  intro l
  induction l with
  | nil =>
    intro book hp _ _
    exact ⟨book, rfl, by simp, hp⟩
  | cons o rest ih =>
    intro book hp hbl hl
    rcases List.pairwise_cons.mp hl with ⟨ho, hrest⟩
    rcases hins : OrderBook.insert_order cmp book o with _ | b₁
    · exfalso
      obtain ⟨x, hx, he⟩ := (insert_order_none_iff hlt_eq hp).mp hins
      exact hbl x hx o (List.mem_cons_self o rest) he
    · have hperm1 := insert_order_perm hins
      have hsort1 := insert_order_sorted hgt htrans hp hins
      have hbl1 : ∀ x ∈ b₁, ∀ y ∈ rest, cmp x y ≠ .eq := by
        intro x hx y hy
        rcases List.mem_cons.mp (hperm1.subset hx) with rfl | hx'
        · exact ho y hy
        · exact hbl x hx' y (List.mem_cons_of_mem o hy)
      obtain ⟨b, hall, hperm, hsort⟩ := ih b₁ hsort1 hbl1 hrest
      refine ⟨b, ?_, ?_, hsort⟩
      · simp only [OrderBook.insertAll, hins]
        exact hall
      · refine hperm.trans ?_
        refine (hperm1.append_right rest).trans ?_
        exact List.perm_middle.symm

end InsertAllFacts

/-- C8: round-trip ordering law.  For a list of orders with pairwise
distinct `(price, nonce)` keys, inserting any permutation of it through
`OrderBook::insert_order` into the empty book yields exactly the same
front-to-back book as inserting the original list, for both side
orders. -/
theorem insertion_order_independence (l₁ l₂ : List LimitOrder)
    (hkeys : List.Pairwise (fun a b => ¬(a.price = b.price ∧ a.nonce = b.nonce)) l₁)
    (hperm : l₂.Perm l₁) :
    OrderBook.insertAll BuyLimitOrder.cmp [] l₂ =
      OrderBook.insertAll BuyLimitOrder.cmp [] l₁ ∧
    OrderBook.insertAll SellLimitOrder.cmp [] l₂ =
      OrderBook.insertAll SellLimitOrder.cmp [] l₁ := by
  have hsymm : Symmetric (fun a b : LimitOrder => ¬(a.price = b.price ∧ a.nonce = b.nonce)) := by
    intro a b hab hba
    exact hab ⟨hba.1.symm, hba.2.symm⟩
  have hkeys2 : List.Pairwise (fun a b => ¬(a.price = b.price ∧ a.nonce = b.nonce)) l₂ :=
    (hperm.pairwise_iff (fun h => hsymm h)).mpr hkeys
  constructor
  · obtain ⟨b1, h1, p1, s1⟩ := insertAll_sorted_perm buy_cmp_gt_iff
      (fun x y z hxy hyz => buyLt_trans hxy hyz) buy_lt_eq_trans l₁ []
      List.Pairwise.nil (by simp)
      (hkeys.imp (fun hab he => hab ((buy_cmp_eq_iff _ _).mp he)))
    obtain ⟨b2, h2, p2, s2⟩ := insertAll_sorted_perm buy_cmp_gt_iff
      (fun x y z hxy hyz => buyLt_trans hxy hyz) buy_lt_eq_trans l₂ []
      List.Pairwise.nil (by simp)
      (hkeys2.imp (fun hab he => hab ((buy_cmp_eq_iff _ _).mp he)))
    haveI : IsAntisymm LimitOrder (fun a b => BuyLimitOrder.cmp a b = .lt) :=
      ⟨fun x y hxy hyx => (buyLt_asymm hxy hyx).elim⟩
    have hb : b2 = b1 :=
      List.eq_of_perm_of_sorted (p2.trans (hperm.trans p1.symm)) s2 s1
    rw [h1, h2, hb]
  · obtain ⟨b1, h1, p1, s1⟩ := insertAll_sorted_perm sell_cmp_gt_iff
      (fun x y z hxy hyz => sellLt_trans hxy hyz) sell_lt_eq_trans l₁ []
      List.Pairwise.nil (by simp)
      (hkeys.imp (fun hab he => hab ((sell_cmp_eq_iff _ _).mp he)))
    obtain ⟨b2, h2, p2, s2⟩ := insertAll_sorted_perm sell_cmp_gt_iff
      (fun x y z hxy hyz => sellLt_trans hxy hyz) sell_lt_eq_trans l₂ []
      List.Pairwise.nil (by simp)
      (hkeys2.imp (fun hab he => hab ((sell_cmp_eq_iff _ _).mp he)))
    haveI : IsAntisymm LimitOrder (fun a b => SellLimitOrder.cmp a b = .lt) :=
      ⟨fun x y hxy hyx => (sellLt_asymm hxy hyx).elim⟩
    have hb : b2 = b1 :=
      List.eq_of_perm_of_sorted (p2.trans (hperm.trans p1.symm)) s2 s1
    rw [h1, h2, hb]

/-- Witness for C8: two orders with distinct keys inserted in either
order produce the same books. -/
theorem insertion_order_independence_witness :
    OrderBook.insertAll BuyLimitOrder.cmp []
        [{ price := 4, nonce := 1, amount := 6, trader_id := 2 },
         { price := 5, nonce := 0, amount := 3, trader_id := 1 }] =
      OrderBook.insertAll BuyLimitOrder.cmp []
        [{ price := 5, nonce := 0, amount := 3, trader_id := 1 },
         { price := 4, nonce := 1, amount := 6, trader_id := 2 }] ∧
    OrderBook.insertAll SellLimitOrder.cmp []
        [{ price := 4, nonce := 1, amount := 6, trader_id := 2 },
         { price := 5, nonce := 0, amount := 3, trader_id := 1 }] =
      OrderBook.insertAll SellLimitOrder.cmp []
        [{ price := 5, nonce := 0, amount := 3, trader_id := 1 },
         { price := 4, nonce := 1, amount := 6, trader_id := 2 }] :=
  insertion_order_independence
    [{ price := 5, nonce := 0, amount := 3, trader_id := 1 },
     { price := 4, nonce := 1, amount := 6, trader_id := 2 }]
    [{ price := 4, nonce := 1, amount := 6, trader_id := 2 },
     { price := 5, nonce := 0, amount := 3, trader_id := 1 }]
    (by simp)
    (List.Perm.swap _ _ _)

/-- Witness for C10 at the concrete crossing submission of the C5
scenario. -/
theorem fill_pair_perspectives_witness :
    ∃ ps : List (Fill × Fill),
      [Fill.new 4 5 .Buy 1 3, Fill.new 4 5 .Sell 3 1] = pairFills ps ∧
      List.Forall₂ (fun (q : Fill × Fill) (r : LimitOrder) =>
        q.1.side = OrderSide.Sell.opposite ∧ q.1.trader = r.trader_id ∧
        q.1.counter_party = 3 ∧
        q.2.side = .Sell ∧ q.2.trader = 3 ∧ q.2.counter_party = q.1.trader ∧
        q.2.amount = q.1.amount ∧ q.2.price = q.1.price)
        ps ((mDemo2.book OrderSide.Sell.opposite).take ps.length) :=
  fill_pair_perspectives mDemo2 3 4 1 .Sell
    [Fill.new 4 5 .Buy 1 3, Fill.new 4 5 .Sell 3 1]
    { nonce := 3,
      buys := [{ price := 5, nonce := 0, amount := 6, trader_id := 1 }],
      sells := [{ price := 7, nonce := 1, amount := 10, trader_id := 2 }] }
    (by decide)

end SimpleLob
